import Mathlib

/-!
Verification of the EdgeBoost tree predictor (src/EdgeBoost/predictor.py).

The node records, the per-sample traversal loops, the batch prediction entry
points and the validation checks are embedded from the source. Machine floats
are modelled by rationals; the numpy record array is a list of node records;
a sample is a map from feature index to its value. Spawning one OS process
per sample (multiprocessing.Process) is modelled with fork/join semantics:
each child receives a copy of the output buffer, writes into that copy, and
the copy is discarded at join. The tree grower and the bin mapper are not
part of src/; where a claim needs them they are modelled from the spec, and
those definitions say so in their doc comments.
-/

namespace EdgeBoost

/-- One entry of the flat node-record array (PREDICTOR_RECORD_DTYPE fields).
The is_leaf field is a uint8 in the source, so it is a natural number here
and a node counts as a leaf when it is nonzero, matching Python truthiness. -/
structure Node where
  is_leaf : ℕ
  value : List ℚ
  count : ℕ
  feature_idx : ℕ
  bin_threshold : ℕ
  threshold : ℚ
  left : ℕ
  right : ℕ
  gain : ℚ
  depth : ℕ
deriving DecidableEq, Inhabited

/-- The element dtype of an input matrix, as far as the validation checks in
predict_binned and predict inspect it. -/
inductive DType where
  | uint8
  | float32
  | float64
deriving DecidableEq

/-- The while-True loop of _predict_one_binned: starting from node index i,
follow left when binned_data[feature_idx] is at most bin_threshold, right
otherwise, and return the value vector of the leaf reached. The source loop
is unbounded; here it carries fuel, and none models either running out of
fuel or an out-of-bounds node index. -/
def predictOneBinnedLoop (nodes : List Node) (binned_data : ℕ → ℕ) : ℕ → ℕ → Option (List ℚ)
  | _, 0 => none
  | i, fuel + 1 =>
    match nodes[i]? with
    | none => none
    | some node =>
      if node.is_leaf ≠ 0 then some node.value
      else if binned_data node.feature_idx ≤ node.bin_threshold then
        predictOneBinnedLoop nodes binned_data node.left fuel
      else
        predictOneBinnedLoop nodes binned_data node.right fuel

/-- The while-True loop of _predict_one_from_numeric_data: identical shape,
but the comparison is numeric_data[feature_idx] against the real threshold. -/
def predictOneNumericLoop (nodes : List Node) (numeric_data : ℕ → ℚ) : ℕ → ℕ → Option (List ℚ)
  | _, 0 => none
  | i, fuel + 1 =>
    match nodes[i]? with
    | none => none
    | some node =>
      if node.is_leaf ≠ 0 then some node.value
      else if numeric_data node.feature_idx ≤ node.threshold then
        predictOneNumericLoop nodes numeric_data node.left fuel
      else
        predictOneNumericLoop nodes numeric_data node.right fuel

/-- _predict_one_binned: run the traversal loop from node 0 and write the
leaf value into row idx of out. Fuel nodes.length bounds the loop; if the
loop does not reach a leaf within it, no write is modelled. -/
def _predict_one_binned (nodes : List Node) (binned_data : ℕ → ℕ)
    (out : List (List ℚ)) (idx : ℕ) : List (List ℚ) :=
  match predictOneBinnedLoop nodes binned_data 0 nodes.length with
  | some v => out.set idx v
  | none => out

/-- _predict_one_from_numeric_data: numeric counterpart of the above. -/
def _predict_one_from_numeric_data (nodes : List Node) (numeric_data : ℕ → ℚ)
    (out : List (List ℚ)) (idx : ℕ) : List (List ℚ) :=
  match predictOneNumericLoop nodes numeric_data 0 nodes.length with
  | some v => out.set idx v
  | none => out

/-- _predict_binned: one multiprocessing.Process per sample. Fork gives each
child a copy-on-write copy of the address space, so the write of
_predict_one_binned lands in the child copy; join discards the child copies
and the parent keeps its own out unchanged. -/
def _predict_binned (nodes : List Node) (binned_data : List (ℕ → ℕ))
    (out : List (List ℚ)) : List (List ℚ) :=
  let childCopies := (List.range binned_data.length).map
    (fun i => _predict_one_binned nodes (binned_data.getD i (fun _ => 0)) out i)
  childCopies.foldl (fun parentOut _childOut => parentOut) out

/-- _predict_from_numeric_data: same process-per-sample fork/join shape. -/
def _predict_from_numeric_data (nodes : List Node) (numeric_data : List (ℕ → ℚ))
    (out : List (List ℚ)) : List (List ℚ) :=
  let childCopies := (List.range numeric_data.length).map
    (fun i => _predict_one_from_numeric_data nodes (numeric_data.getD i (fun _ => 0)) out i)
  childCopies.foldl (fun parentOut _childOut => parentOut) out

/-- The shape of the module-level numpy record layout PREDICTOR_RECORD_DTYPE:
all fields but the value field are fixed, and the value field format is a
float vector of some width, so the layout is modelled by that width. -/
structure RecordDType where
  value_width : ℕ
deriving DecidableEq

/-- The module-level PREDICTOR_RECORD_DTYPE as defined at import time, with
value format 50f8. -/
def PREDICTOR_RECORD_DTYPE : RecordDType := { value_width := 50 }

/-- The TreePredictor instance attributes set by __init__. -/
structure TreePredictor where
  nodes : List Node
  has_numerical_thresholds : Bool
  prediction_dim : ℕ

/-- TreePredictor.__init__: stores the attributes and rebinds the
module-level PREDICTOR_RECORD_DTYPE (a global statement in the source) with
the value field width set to prediction_dim. The module global is passed in
and returned explicitly to model the process-wide state. -/
def TreePredictor.init (nodes : List Node) (has_numerical_thresholds : Bool)
    (prediction_dim : ℕ) (_g : RecordDType) : TreePredictor × RecordDType :=
  (({ nodes := nodes, has_numerical_thresholds := has_numerical_thresholds,
      prediction_dim := prediction_dim } : TreePredictor),
   { value_width := prediction_dim })

/-- TreePredictor.get_n_leaf_nodes: the numpy sum of the uint8 is_leaf
column. -/
def TreePredictor.get_n_leaf_nodes (p : TreePredictor) : ℕ :=
  (p.nodes.map (fun n => n.is_leaf)).sum

/-- TreePredictor.predict_binned: reject non-uint8 input, otherwise allocate
out with np.empty (the uninitialized buffer is the empty_out argument here)
and run _predict_binned. -/
def TreePredictor.predict_binned (p : TreePredictor) (dtype : DType)
    (binned_data : List (ℕ → ℕ)) (empty_out : List (List ℚ)) :
    Except String (List (List ℚ)) :=
  if dtype ≠ DType.uint8 then
    Except.error "binned_data dtype should be uint8"
  else
    Except.ok (_predict_binned p.nodes binned_data empty_out)

/-- TreePredictor.predict: reject when the predictor has no numerical
thresholds, then reject uint8 input, otherwise allocate out with np.empty
and run _predict_from_numeric_data. The first message concatenates two
source string literals without a space, hence the word canonly. -/
def TreePredictor.predict (p : TreePredictor) (dtype : DType)
    (X : List (ℕ → ℚ)) (empty_out : List (List ℚ)) :
    Except String (List (List ℚ)) :=
  if p.has_numerical_thresholds = false then
    Except.error "This predictor does not have numerical thresholds so it canonly predict pre-binned data."
  else if dtype = DType.uint8 then
    Except.error "X has uint8 dtype: use estimator.predict(X) if X is pre-binned, or convert X to a float32 dtype to be treated as numerical data"
  else
    Except.ok (_predict_from_numeric_data p.nodes X empty_out)

/-- The implicit binary-tree well-formedness invariant of a node array: it is
nonempty (the root sits at index 0) and every non-leaf record points to left
and right children strictly after itself and inside the array. -/
def wellFormed (nodes : List Node) : Prop :=
  0 < nodes.length ∧ ∀ i, i < nodes.length →
    ((nodes.getD i default).is_leaf ≠ 0 ∨
      (i < (nodes.getD i default).left ∧ (nodes.getD i default).left < nodes.length ∧
       i < (nodes.getD i default).right ∧ (nodes.getD i default).right < nodes.length))

instance wellFormedDecidable (nodes : List Node) : Decidable (wellFormed nodes) := by
  unfold wellFormed
  exact instDecidableAnd

/-- The traversal rule exactly as the claim words it for the binned path:
start anywhere, at a non-leaf move to left when the sample value at
feature_idx is at most bin_threshold and to right otherwise, and at a leaf
produce that leaf value vector. -/
inductive TraversalSpecBinned (nodes : List Node) (sample : ℕ → ℕ) : ℕ → List ℚ → Prop where
  | leaf (i : ℕ) (node : Node) (hget : nodes[i]? = some node)
      (hleaf : node.is_leaf ≠ 0) :
      TraversalSpecBinned nodes sample i node.value
  | stepLeft (i : ℕ) (node : Node) (v : List ℚ) (hget : nodes[i]? = some node)
      (hleaf : node.is_leaf = 0)
      (hcmp : sample node.feature_idx ≤ node.bin_threshold)
      (hrec : TraversalSpecBinned nodes sample node.left v) :
      TraversalSpecBinned nodes sample i v
  | stepRight (i : ℕ) (node : Node) (v : List ℚ) (hget : nodes[i]? = some node)
      (hleaf : node.is_leaf = 0)
      (hcmp : ¬ sample node.feature_idx ≤ node.bin_threshold)
      (hrec : TraversalSpecBinned nodes sample node.right v) :
      TraversalSpecBinned nodes sample i v

/-- The traversal rule as the claim words it for the numeric path, with the
comparison taken against the real-valued threshold field. -/
inductive TraversalSpecNumeric (nodes : List Node) (sample : ℕ → ℚ) : ℕ → List ℚ → Prop where
  | leaf (i : ℕ) (node : Node) (hget : nodes[i]? = some node)
      (hleaf : node.is_leaf ≠ 0) :
      TraversalSpecNumeric nodes sample i node.value
  | stepLeft (i : ℕ) (node : Node) (v : List ℚ) (hget : nodes[i]? = some node)
      (hleaf : node.is_leaf = 0)
      (hcmp : sample node.feature_idx ≤ node.threshold)
      (hrec : TraversalSpecNumeric nodes sample node.left v) :
      TraversalSpecNumeric nodes sample i v
  | stepRight (i : ℕ) (node : Node) (v : List ℚ) (hget : nodes[i]? = some node)
      (hleaf : node.is_leaf = 0)
      (hcmp : ¬ sample node.feature_idx ≤ node.threshold)
      (hrec : TraversalSpecNumeric nodes sample node.right v) :
      TraversalSpecNumeric nodes sample i v

/-- Number of node records whose is_leaf flag is set. -/
def nLeaves (nodes : List Node) : ℕ :=
  (nodes.filter (fun n => n.is_leaf != 0)).length

/-- A fresh leaf record as the grower appends it: flag set, value vector and
sample count as computed for the leaf, split fields zeroed. -/
def mkLeaf (value : List ℚ) (count : ℕ) (depth : ℕ) : Node :=
  { is_leaf := 1
    value := value
    count := count
    feature_idx := 0
    bin_threshold := 0
    threshold := 0
    left := 0
    right := 0
    gain := 0
    depth := depth }

/-- A leaf record turned into an internal record when the grower splits it:
flag cleared and the split fields filled in. -/
def splitNode (n : Node) (feature_idx bin_threshold : ℕ) (threshold gain : ℚ)
    (left right : ℕ) : Node :=
  { n with
    is_leaf := 0
    feature_idx := feature_idx
    bin_threshold := bin_threshold
    threshold := threshold
    gain := gain
    left := left
    right := right }

/-- Modelled from the spec: the Tree Grower is not part of src/. One growth
step materializes the split of a leaf while the leaf count is below the
configured maximum: the leaf record at index i becomes an internal record
whose children are the two fresh leaf records appended at the end of the
array, so child indices equal the old length and old length plus one. The
split parameters (feature, bin cut, numeric threshold, gain, child values
and counts) are unconstrained here because only the structural invariants
are at stake. -/
inductive GrowStep (max_leaf_nodes : ℕ) : List Node → List Node → Prop where
  | split (nodes : List Node) (i : ℕ) (f bt : ℕ) (th g : ℚ)
      (lv rv : List ℚ) (lc rc : ℕ)
      (hi : i < nodes.length)
      (hleaf : (nodes.getD i default).is_leaf ≠ 0)
      (hbudget : nLeaves nodes < max_leaf_nodes) :
      GrowStep max_leaf_nodes nodes
        (nodes.set i (splitNode (nodes.getD i default) f bt th g
            nodes.length (nodes.length + 1))
          ++ [mkLeaf lv lc ((nodes.getD i default).depth + 1),
              mkLeaf rv rc ((nodes.getD i default).depth + 1)])

/-- Modelled from the spec: a fitted tree is any node array the grower can
hand to the predictor, i.e. one reachable from a single root leaf record by
growth steps under the configured leaf budget. -/
def Fitted (max_leaf_nodes : ℕ) (nodes : List Node) : Prop :=
  ∃ root : Node, root.is_leaf = 1 ∧
    Relation.ReflTransGen (GrowStep max_leaf_nodes) [root] nodes

/-- Modelled from the spec: the Bin Mapper is not part of src/. edges b is
the upper bin edge of bin b for one feature; monotone edge sequences are
what the mapper produces (ascending bin-edge thresholds). -/
def monotoneEdges (edges : ℕ → ℚ) : Prop :=
  ∀ a b : ℕ, a ≤ b → edges a ≤ edges b

/-- Modelled from the spec: a raw value v falls strictly inside bin b when
it is strictly below the upper edge of b and, unless b is the first bin,
strictly above the upper edge of the previous bin. -/
def strictlyInside (edges : ℕ → ℚ) (b : ℕ) (v : ℚ) : Prop :=
  v < edges b ∧ (b = 0 ∨ edges (b - 1) < v)

/-- Modelled from the spec: the thresholds of a node array were reconstructed
as numeric when every internal node carries the numeric upper edge of its bin
cut-point on its split feature. -/
def thresholdsReconstructed (edges : ℕ → ℕ → ℚ) (nodes : List Node) : Prop :=
  ∀ n ∈ nodes, n.is_leaf = 0 → n.threshold = edges n.feature_idx n.bin_threshold

lemma getElem?_eq_some_getD (l : List Node) (i : ℕ) (h : i < l.length) :
    l[i]? = some (l.getD i default) := by
  simp [List.getD_eq_getElem?_getD, List.getElem?_eq_getElem h]

lemma predictOneBinnedLoop_sound (nodes : List Node) (s : ℕ → ℕ) :
    ∀ fuel i v, predictOneBinnedLoop nodes s i fuel = some v →
      TraversalSpecBinned nodes s i v := by
  intro fuel
  induction fuel with
  | zero => intro i v h; simp [predictOneBinnedLoop] at h
  | succ fuel ih =>
    intro i v h
    rw [predictOneBinnedLoop] at h
    cases hget : nodes[i]? with
    | none => rw [hget] at h; simp at h
    | some node =>
      rw [hget] at h
      simp only at h
      by_cases hleaf : node.is_leaf ≠ 0
      · rw [if_pos hleaf] at h
        cases h
        exact TraversalSpecBinned.leaf i node hget hleaf
      · rw [if_neg hleaf] at h
        have hleaf0 : node.is_leaf = 0 := not_ne_iff.mp hleaf
        by_cases hcmp : s node.feature_idx ≤ node.bin_threshold
        · rw [if_pos hcmp] at h
          exact TraversalSpecBinned.stepLeft i node v hget hleaf0 hcmp (ih _ _ h)
        · rw [if_neg hcmp] at h
          exact TraversalSpecBinned.stepRight i node v hget hleaf0 hcmp (ih _ _ h)

lemma predictOneBinnedLoop_complete (nodes : List Node) (s : ℕ → ℕ) (i : ℕ)
    (v : List ℚ) (h : TraversalSpecBinned nodes s i v) :
    ∃ fuel, predictOneBinnedLoop nodes s i fuel = some v := by
  induction h with
  | leaf i node hget hleaf =>
    exact ⟨1, by rw [predictOneBinnedLoop, hget]; simp [hleaf]⟩
  | stepLeft i node v hget hleaf hcmp hrec ih =>
    obtain ⟨fuel, hf⟩ := ih
    exact ⟨fuel + 1, by rw [predictOneBinnedLoop, hget]; simp [hleaf, hcmp, hf]⟩
  | stepRight i node v hget hleaf hcmp hrec ih =>
    obtain ⟨fuel, hf⟩ := ih
    exact ⟨fuel + 1, by rw [predictOneBinnedLoop, hget]; simp [hleaf, hcmp, hf]⟩

lemma predictOneNumericLoop_sound (nodes : List Node) (s : ℕ → ℚ) :
    ∀ fuel i v, predictOneNumericLoop nodes s i fuel = some v →
      TraversalSpecNumeric nodes s i v := by
  intro fuel
  induction fuel with
  | zero => intro i v h; simp [predictOneNumericLoop] at h
  | succ fuel ih =>
    intro i v h
    rw [predictOneNumericLoop] at h
    cases hget : nodes[i]? with
    | none => rw [hget] at h; simp at h
    | some node =>
      rw [hget] at h
      simp only at h
      by_cases hleaf : node.is_leaf ≠ 0
      · rw [if_pos hleaf] at h
        cases h
        exact TraversalSpecNumeric.leaf i node hget hleaf
      · rw [if_neg hleaf] at h
        have hleaf0 : node.is_leaf = 0 := not_ne_iff.mp hleaf
        by_cases hcmp : s node.feature_idx ≤ node.threshold
        · rw [if_pos hcmp] at h
          exact TraversalSpecNumeric.stepLeft i node v hget hleaf0 hcmp (ih _ _ h)
        · rw [if_neg hcmp] at h
          exact TraversalSpecNumeric.stepRight i node v hget hleaf0 hcmp (ih _ _ h)

lemma predictOneNumericLoop_complete (nodes : List Node) (s : ℕ → ℚ) (i : ℕ)
    (v : List ℚ) (h : TraversalSpecNumeric nodes s i v) :
    ∃ fuel, predictOneNumericLoop nodes s i fuel = some v := by
  induction h with
  | leaf i node hget hleaf =>
    exact ⟨1, by rw [predictOneNumericLoop, hget]; simp [hleaf]⟩
  | stepLeft i node v hget hleaf hcmp hrec ih =>
    obtain ⟨fuel, hf⟩ := ih
    exact ⟨fuel + 1, by rw [predictOneNumericLoop, hget]; simp [hleaf, hcmp, hf]⟩
  | stepRight i node v hget hleaf hcmp hrec ih =>
    obtain ⟨fuel, hf⟩ := ih
    exact ⟨fuel + 1, by rw [predictOneNumericLoop, hget]; simp [hleaf, hcmp, hf]⟩

/-- C1: the per-sample traversal (binned and numeric) starts at node 0, at a
non-leaf node moves to left when the sample value at feature_idx is at most
bin_threshold (binned) or threshold (numeric) and to right otherwise, and on
reaching a leaf yields that leaf value vector, which _predict_one_binned and
_predict_one_from_numeric_data write into row idx of the output. -/
theorem traversal_follows_spec (nodes : List Node) (bs : ℕ → ℕ) (xs : ℕ → ℚ)
    (v : List ℚ) (out : List (List ℚ)) (idx : ℕ) :
    ((∃ fuel, predictOneBinnedLoop nodes bs 0 fuel = some v) ↔
      TraversalSpecBinned nodes bs 0 v)
    ∧ ((∃ fuel, predictOneNumericLoop nodes xs 0 fuel = some v) ↔
      TraversalSpecNumeric nodes xs 0 v)
    ∧ (predictOneBinnedLoop nodes bs 0 nodes.length = some v →
        _predict_one_binned nodes bs out idx = out.set idx v)
    ∧ (predictOneNumericLoop nodes xs 0 nodes.length = some v →
        _predict_one_from_numeric_data nodes xs out idx = out.set idx v) := by
  refine ⟨⟨fun ⟨fuel, hf⟩ => predictOneBinnedLoop_sound nodes bs fuel 0 v hf,
           predictOneBinnedLoop_complete nodes bs 0 v⟩,
          ⟨fun ⟨fuel, hf⟩ => predictOneNumericLoop_sound nodes xs fuel 0 v hf,
           predictOneNumericLoop_complete nodes xs 0 v⟩, ?_, ?_⟩
  · intro h
    unfold _predict_one_binned
    rw [h]
  · intro h
    unfold _predict_one_from_numeric_data
    rw [h]

/-- Demonstration tree: an internal root splitting feature 0 at bin 3
(numeric threshold 3), with leaf values [5] and [7]. -/
def demoRoot : Node :=
  { is_leaf := 0
    value := [0]
    count := 2
    feature_idx := 0
    bin_threshold := 3
    threshold := 3
    left := 1
    right := 2
    gain := 1
    depth := 0 }

def demoNodes : List Node :=
  [demoRoot, mkLeaf [5] 1 1, mkLeaf [7] 1 1]

theorem traversal_follows_spec_witness :
    TraversalSpecBinned demoNodes (fun _ => 2) 0 [5]
    ∧ _predict_one_binned demoNodes (fun _ => 2) [[0], [0]] 0 = [[5], [0]] :=
  ⟨(traversal_follows_spec demoNodes (fun _ => 2) (fun _ => 0) [5] [[0], [0]] 0).1.mp
      ⟨2, by decide⟩,
   (traversal_follows_spec demoNodes (fun _ => 2) (fun _ => 0) [5] [[0], [0]] 0).2.2.1
      (by decide)⟩

lemma predictOneBinnedLoop_total (nodes : List Node) (hwf : wellFormed nodes)
    (bs : ℕ → ℕ) :
    ∀ fuel i, i < nodes.length → nodes.length - i ≤ fuel →
      (predictOneBinnedLoop nodes bs i fuel).isSome := by
  intro fuel
  induction fuel with
  | zero => intro i hi hle; omega
  | succ fuel ih =>
    intro i hi hle
    rw [predictOneBinnedLoop, getElem?_eq_some_getD nodes i hi]
    simp only
    by_cases hl : (nodes.getD i default).is_leaf ≠ 0
    · rw [if_pos hl]; rfl
    · rw [if_neg hl]
      rcases hwf.2 i hi with hleaf | ⟨h1, h2, h3, h4⟩
      · exact absurd hleaf hl
      · by_cases hc : bs (nodes.getD i default).feature_idx ≤
            (nodes.getD i default).bin_threshold
        · rw [if_pos hc]; exact ih _ h2 (by omega)
        · rw [if_neg hc]; exact ih _ h4 (by omega)

lemma predictOneNumericLoop_total (nodes : List Node) (hwf : wellFormed nodes)
    (xs : ℕ → ℚ) :
    ∀ fuel i, i < nodes.length → nodes.length - i ≤ fuel →
      (predictOneNumericLoop nodes xs i fuel).isSome := by
  intro fuel
  induction fuel with
  | zero => intro i hi hle; omega
  | succ fuel ih =>
    intro i hi hle
    rw [predictOneNumericLoop, getElem?_eq_some_getD nodes i hi]
    simp only
    by_cases hl : (nodes.getD i default).is_leaf ≠ 0
    · rw [if_pos hl]; rfl
    · rw [if_neg hl]
      rcases hwf.2 i hi with hleaf | ⟨h1, h2, h3, h4⟩
      · exact absurd hleaf hl
      · by_cases hc : xs (nodes.getD i default).feature_idx ≤
            (nodes.getD i default).threshold
        · rw [if_pos hc]; exact ih _ h2 (by omega)
        · rw [if_neg hc]; exact ih _ h4 (by omega)

/-- C10: on a well-formed node array the per-sample traversal loops reach a
leaf for every input sample within nodes.length steps, because the current
index strictly increases at each iteration; in particular the unbounded
while-True loops of the source terminate. -/
theorem traversal_terminates (nodes : List Node) (hwf : wellFormed nodes)
    (bs : ℕ → ℕ) (xs : ℕ → ℚ) :
    (∃ v, predictOneBinnedLoop nodes bs 0 nodes.length = some v)
    ∧ (∃ v, predictOneNumericLoop nodes xs 0 nodes.length = some v) := by
  constructor
  · exact Option.isSome_iff_exists.mp
      (predictOneBinnedLoop_total nodes hwf bs nodes.length 0 hwf.1 (by omega))
  · exact Option.isSome_iff_exists.mp
      (predictOneNumericLoop_total nodes hwf xs nodes.length 0 hwf.1 (by omega))

theorem traversal_terminates_witness :
    (∃ v, predictOneBinnedLoop demoNodes (fun _ => 9) 0 demoNodes.length = some v)
    ∧ (∃ v, predictOneNumericLoop demoNodes (fun _ => 9) 0 demoNodes.length = some v) :=
  traversal_terminates demoNodes (by decide) (fun _ => 9) (fun _ => 9)

/-- C3: predict_binned answers the validation error for every non-uint8
input dtype without running the batch prediction, and for uint8 input it
passes the dtype check and runs the batch prediction. -/
theorem predict_binned_validates_dtype (p : TreePredictor) (dtype : DType)
    (binned_data : List (ℕ → ℕ)) (empty_out : List (List ℚ)) :
    (dtype ≠ DType.uint8 →
      p.predict_binned dtype binned_data empty_out =
        Except.error "binned_data dtype should be uint8")
    ∧ (dtype = DType.uint8 →
      p.predict_binned dtype binned_data empty_out =
        Except.ok (_predict_binned p.nodes binned_data empty_out)) := by
  constructor <;> intro h <;> simp [TreePredictor.predict_binned, h]

theorem predict_binned_validates_dtype_witness :
    (TreePredictor.mk demoNodes true 1).predict_binned DType.float32 [] [] =
      Except.error "binned_data dtype should be uint8"
    ∧ (TreePredictor.mk demoNodes true 1).predict_binned DType.uint8 [] [] =
      Except.ok (_predict_binned demoNodes [] []) :=
  ⟨(predict_binned_validates_dtype (TreePredictor.mk demoNodes true 1)
      DType.float32 [] []).1 (by decide),
   (predict_binned_validates_dtype (TreePredictor.mk demoNodes true 1)
      DType.uint8 [] []).2 rfl⟩

/-- C4: predict answers a validation error exactly when the predictor has no
numerical thresholds or the input dtype is uint8, and otherwise passes both
checks and runs the numeric batch prediction; the error cases return before
the batch prediction is invoked. -/
theorem predict_validates_input (p : TreePredictor) (dtype : DType)
    (X : List (ℕ → ℚ)) (empty_out : List (List ℚ)) :
    ((∃ e, p.predict dtype X empty_out = Except.error e) ↔
      (p.has_numerical_thresholds = false ∨ dtype = DType.uint8))
    ∧ (p.has_numerical_thresholds = true → dtype ≠ DType.uint8 →
        p.predict dtype X empty_out =
          Except.ok (_predict_from_numeric_data p.nodes X empty_out)) := by
  by_cases h1 : p.has_numerical_thresholds = false
  · constructor
    · simp [TreePredictor.predict, h1]
    · intro h1' _
      rw [h1] at h1'
      cases h1'
  · have h1' : p.has_numerical_thresholds = true := by
      cases hb : p.has_numerical_thresholds
      · exact absurd hb h1
      · rfl
    by_cases h2 : dtype = DType.uint8
    · constructor
      · simp [TreePredictor.predict, h1', h2]
      · intro _ h2'
        exact absurd h2 h2'
    · constructor
      · simp [TreePredictor.predict, h1', h2]
      · intro _ _
        simp [TreePredictor.predict, h1', h2]

theorem predict_validates_input_witness :
    (∃ e, (TreePredictor.mk demoNodes false 1).predict DType.float32 [] [] =
      Except.error e)
    ∧ (∃ e, (TreePredictor.mk demoNodes true 1).predict DType.uint8 [] [] =
      Except.error e)
    ∧ (TreePredictor.mk demoNodes true 1).predict DType.float32 [] [] =
      Except.ok (_predict_from_numeric_data demoNodes [] []) :=
  ⟨(predict_validates_input (TreePredictor.mk demoNodes false 1)
      DType.float32 [] []).1.mpr (Or.inl rfl),
   (predict_validates_input (TreePredictor.mk demoNodes true 1)
      DType.uint8 [] []).1.mpr (Or.inr rfl),
   (predict_validates_input (TreePredictor.mk demoNodes true 1)
      DType.float32 [] []).2 rfl (by decide)⟩

/-- C5 counterexample: constructing a TreePredictor with prediction_dim 1
rebinds the module-level PREDICTOR_RECORD_DTYPE (a global statement in
__init__), so construction does not leave the module-level state unchanged. -/
theorem init_mutates_record_dtype :
    (TreePredictor.init [] true 1 PREDICTOR_RECORD_DTYPE).2 ≠
      PREDICTOR_RECORD_DTYPE := by
  decide

/-- C5 amended: __init__ stores prediction_dim on the instance but also
rebinds the module-level PREDICTOR_RECORD_DTYPE, setting the value field
width to prediction_dim, for every constructor argument and every prior
module state; constructions therefore do interfere through the module
global, the last construction winning. -/
theorem init_rebinds_record_dtype (nodes : List Node) (hnt : Bool)
    (prediction_dim : ℕ) (g : RecordDType) :
    (TreePredictor.init nodes hnt prediction_dim g).1.prediction_dim =
      prediction_dim
    ∧ (TreePredictor.init nodes hnt prediction_dim g).2.value_width =
      prediction_dim :=
  ⟨rfl, rfl⟩

/-- C2: on a single-leaf tree with leaf value [5] and one binned sample, the
traversal reaches [5], yet predict_binned returns the uninitialized output
buffer unchanged, because each per-sample write happens inside a forked
child process copy of the buffer that is discarded at join. -/
theorem predict_binned_loses_writes :
    predictOneBinnedLoop [mkLeaf [5] 1 0] (fun _ => 0) 0 1 = some [5]
    ∧ (TreePredictor.mk [mkLeaf [5] 1 0] true 1).predict_binned DType.uint8
        [fun _ => 0] [[0]] = Except.ok [[0]]
    ∧ ([[0]] : List (List ℚ)) ≠ [[5]] :=
  ⟨by decide, rfl, by decide⟩

/-- C9: two runs of _predict_binned with the same node array and the same
input matrix but different uninitialized np.empty buffer contents return
different results, each run handing back its own buffer unchanged; the batch
output is therefore a function of the arbitrary buffer contents, not of the
node array and input rows, and likewise for the numeric path. -/
theorem predict_output_tracks_uninitialized_buffer :
    _predict_binned [mkLeaf [5] 1 0] [fun _ => 0] [[0]] = [[0]]
    ∧ _predict_binned [mkLeaf [5] 1 0] [fun _ => 0] [[7]] = [[7]]
    ∧ _predict_from_numeric_data [mkLeaf [5] 1 0] [fun _ => 0] [[0]] = [[0]]
    ∧ _predict_from_numeric_data [mkLeaf [5] 1 0] [fun _ => 0] [[7]] = [[7]]
    ∧ ([[0]] : List (List ℚ)) ≠ [[7]] :=
  ⟨by decide, by decide, by decide, by decide, by decide⟩

lemma getD_set_self (l : List Node) (i : ℕ) (a : Node) (h : i < l.length) :
    (l.set i a).getD i default = a := by
  simp [List.getD_eq_getElem?_getD, List.getElem?_set_self, h]

lemma getD_set_ne (l : List Node) (i j : ℕ) (a : Node) (h : i ≠ j) :
    (l.set i a).getD j default = l.getD j default := by
  simp [List.getD_eq_getElem?_getD, List.getElem?_set_ne h]

lemma getD_append_lt (l l' : List Node) (j : ℕ) (h : j < l.length) :
    (l ++ l').getD j default = l.getD j default := by
  simp [List.getD_eq_getElem?_getD, List.getElem?_append, h]

lemma getD_append_ge (l l' : List Node) (j : ℕ) (h : l.length ≤ j) :
    (l ++ l').getD j default = l'.getD (j - l.length) default := by
  simp [List.getD_eq_getElem?_getD, List.getElem?_append_right h]

lemma nLeaves_append (l l' : List Node) :
    nLeaves (l ++ l') = nLeaves l + nLeaves l' := by
  simp [nLeaves, List.filter_append]

lemma nLeaves_set_internal (x : Node) (hx : x.is_leaf = 0) :
    ∀ (l : List Node) (i : ℕ), (l.getD i default).is_leaf ≠ 0 →
      i < l.length → nLeaves (l.set i x) + 1 = nLeaves l := by
  intro l
  induction l with
  | nil => intro i _ hi; simp at hi
  | cons head tail ih =>
    intro i hleaf hi
    cases i with
    | zero =>
      rw [List.getD_cons_zero] at hleaf
      simp [nLeaves, List.filter_cons, hleaf, hx]
    | succ i =>
      rw [List.getD_cons_succ] at hleaf
      have hi' : i < tail.length := by simpa using hi
      have step := ih i hleaf hi'
      by_cases hp : head.is_leaf ≠ 0
      · simp only [List.set, nLeaves, List.filter_cons] at step ⊢
        simp [hp] at step ⊢
        omega
      · have hp0 : head.is_leaf = 0 := not_ne_iff.mp hp
        simp only [List.set, nLeaves, List.filter_cons] at step ⊢
        simp [hp0] at step ⊢
        omega

/-- The structural invariant the growth process maintains: the node array is
well formed, every is_leaf flag is 0 or 1, and the leaf count stays within
the budget (a tree always holds at least one leaf, hence the max with 1). -/
def GrowInv (m : ℕ) (nodes : List Node) : Prop :=
  wellFormed nodes ∧ (∀ n ∈ nodes, n.is_leaf ≤ 1) ∧ nLeaves nodes ≤ max m 1

lemma growStep_inv (m : ℕ) (a b : List Node) (hstep : GrowStep m a b)
    (ha : GrowInv m a) : GrowInv m b := by
  obtain ⟨⟨hpos, hwf⟩, hflags, hcount⟩ := ha
  cases hstep with
  | split i f bt th g lv rv lc rc hi hleaf hbudget =>
    set L := a.length with hL
    set x := splitNode (a.getD i default) f bt th g L (L + 1) with hxdef
    have hsetlen : (a.set i x).length = L := by simp [hL]
    have hlen : ((a.set i x) ++
        [mkLeaf lv lc ((a.getD i default).depth + 1),
         mkLeaf rv rc ((a.getD i default).depth + 1)]).length = L + 2 := by
      simp [hsetlen]
    refine ⟨⟨by omega, ?_⟩, ?_, ?_⟩
    · intro j hj
      rw [hlen] at hj
      by_cases hjL : j < L
      · rw [getD_append_lt _ _ j (by omega)]
        by_cases hji : j = i
        · subst hji
          rw [getD_set_self a j x (by omega)]
          have hxl : x.left = L := by rw [hxdef]; rfl
          have hxr : x.right = L + 1 := by rw [hxdef]; rfl
          right
          rw [hxl, hxr]
          exact ⟨by omega, by omega, by omega, by omega⟩
        · rw [getD_set_ne a i j x (fun he => hji he.symm)]
          rcases hwf j (by omega) with hl | ⟨c1, c2, c3, c4⟩
          · exact Or.inl hl
          · exact Or.inr ⟨c1, by omega, c3, by omega⟩
      · rw [getD_append_ge _ _ j (by omega)]
        rw [hsetlen]
        have : j - L = 0 ∨ j - L = 1 := by omega
        rcases this with h0 | h1
        · rw [h0]
          exact Or.inl (by simp [mkLeaf])
        · rw [h1]
          exact Or.inl (by simp [mkLeaf])
    · intro n hn
      rcases List.mem_append.mp hn with hmem | hmem
      · rcases List.mem_or_eq_of_mem_set hmem with hmem' | hx
        · exact hflags n hmem'
        · rw [hx, hxdef]
          simp [splitNode]
      · simp only [List.mem_cons, List.mem_singleton] at hmem
        rcases hmem with h1 | h1 | h1
        · rw [h1]; simp [mkLeaf]
        · rw [h1]; simp [mkLeaf]
        · simp at h1
    · rw [nLeaves_append]
      have hset : nLeaves (a.set i x) + 1 = nLeaves a :=
        nLeaves_set_internal x (by rw [hxdef]; rfl) a i hleaf hi
      have htwo : nLeaves
          [mkLeaf lv lc ((a.getD i default).depth + 1),
           mkLeaf rv rc ((a.getD i default).depth + 1)] = 2 := by
        simp [nLeaves, List.filter_cons, mkLeaf]
      rw [htwo]
      omega

lemma fitted_inv (m : ℕ) (nodes : List Node) (h : Fitted m nodes) :
    GrowInv m nodes := by
  obtain ⟨root, hroot, hsteps⟩ := h
  induction hsteps with
  | refl =>
    refine ⟨⟨by simp, ?_⟩, ?_, ?_⟩
    · intro j hj
      simp only [List.length_singleton] at hj
      interval_cases j
      exact Or.inl (by simp [hroot])
    · intro n hn
      simp only [List.mem_singleton] at hn
      rw [hn, hroot]
    · have : nLeaves [root] = 1 := by simp [nLeaves, List.filter_cons, hroot]
      rw [this]
      exact le_max_right m 1
  | tail hrest hstep ih =>
    exact growStep_inv m _ _ hstep ih

/-- C6: every node array the modelled grower can hand to the predictor is a
well-formed implicit binary-tree encoding: the root is at index 0 and every
internal node points to children strictly after itself and inside the
array. -/
theorem fitted_tree_wellFormed (m : ℕ) (nodes : List Node)
    (h : Fitted m nodes) : wellFormed nodes :=
  (fitted_inv m nodes h).1

/-- A one-split growth run: the root leaf of value [3] splits into the two
leaves of values [5] and [7]. -/
def demoGrown : List Node :=
  ([mkLeaf [3] 2 0].set 0
      (splitNode ([mkLeaf [3] 2 0].getD 0 default) 0 3 3 1 1 2))
    ++ [mkLeaf [5] 1 1, mkLeaf [7] 1 1]

lemma demoGrown_fitted : Fitted 4 demoGrown := by
  refine ⟨mkLeaf [3] 2 0, rfl, Relation.ReflTransGen.single ?_⟩
  exact (show GrowStep 4 [mkLeaf [3] 2 0] demoGrown from
    GrowStep.split [mkLeaf [3] 2 0] 0 0 3 3 1 [5] [7] 1 1
      (by decide) (by decide) (by decide))

theorem fitted_tree_wellFormed_witness : wellFormed demoGrown :=
  fitted_tree_wellFormed 4 demoGrown demoGrown_fitted

lemma sum_is_leaf_eq_nLeaves (l : List Node) (h : ∀ n ∈ l, n.is_leaf ≤ 1) :
    (l.map (fun n => n.is_leaf)).sum = nLeaves l := by
  induction l with
  | nil => rfl
  | cons a t ih =>
    have ha := h a (List.mem_cons_self a t)
    have ht : ∀ n ∈ t, n.is_leaf ≤ 1 := fun n hn => h n (List.mem_cons_of_mem a hn)
    rcases Nat.le_one_iff_eq_zero_or_eq_one.mp ha with h0 | h1
    · have hr : nLeaves (a :: t) = nLeaves t := by
        simp [nLeaves, List.filter_cons, h0]
      rw [hr, List.map_cons, List.sum_cons, h0, ih ht]
      omega
    · have hr : nLeaves (a :: t) = nLeaves t + 1 := by
        simp [nLeaves, List.filter_cons, h1]
      rw [hr, List.map_cons, List.sum_cons, h1, ih ht]
      omega

/-- C8: for every tree the modelled grower fits under a positive leaf
budget, get_n_leaf_nodes equals the number of node records whose is_leaf
flag is set, and that count never exceeds max_leaf_nodes. -/
theorem leaf_count_budget (m : ℕ) (nodes : List Node) (hnt : Bool) (pd : ℕ)
    (hm : 1 ≤ m) (h : Fitted m nodes) :
    (TreePredictor.mk nodes hnt pd).get_n_leaf_nodes = nLeaves nodes
    ∧ nLeaves nodes ≤ m := by
  obtain ⟨hwf, hflags, hcount⟩ := fitted_inv m nodes h
  refine ⟨sum_is_leaf_eq_nLeaves nodes hflags, ?_⟩
  rw [Nat.max_eq_left hm] at hcount
  exact hcount

theorem leaf_count_budget_witness :
    (TreePredictor.mk demoGrown true 1).get_n_leaf_nodes = nLeaves demoGrown
    ∧ nLeaves demoGrown ≤ 4 :=
  leaf_count_budget 4 demoGrown true 1 (by decide) demoGrown_fitted

lemma le_edge_iff_of_strictlyInside (edges : ℕ → ℚ) (b : ℕ) (v : ℚ)
    (hmono : monotoneEdges edges) (hin : strictlyInside edges b v) (t : ℕ) :
    (v ≤ edges t ↔ b ≤ t) := by
  obtain ⟨hlt, hlow⟩ := hin
  constructor
  · intro hv
    by_contra hbt
    push_neg at hbt
    rcases hlow with h0 | hgt
    · omega
    · have hle : edges t ≤ edges (b - 1) := hmono t (b - 1) (by omega)
      linarith
  · intro hbt
    have hle : edges b ≤ edges t := hmono b t hbt
    linarith

/-- C7: on a tree whose thresholds were reconstructed from the (monotone)
bin edges, the numeric traversal used by predict on a raw sample whose
feature values fall strictly inside the same bins as a binned sample takes
the same branch at every node as the binned traversal used by
predict_binned, so it reaches the same leaf and yields the same output
vector. -/
theorem binned_numeric_paths_agree (nodes : List Node) (edges : ℕ → ℕ → ℚ)
    (binned : ℕ → ℕ) (numeric : ℕ → ℚ)
    (hmono : ∀ f, monotoneEdges (edges f))
    (hrec : thresholdsReconstructed edges nodes)
    (hin : ∀ f, strictlyInside (edges f) (binned f) (numeric f)) :
    ∀ fuel i, predictOneNumericLoop nodes numeric i fuel =
      predictOneBinnedLoop nodes binned i fuel := by
  intro fuel
  induction fuel with
  | zero => intro i; rfl
  | succ fuel ih =>
    intro i
    rw [predictOneNumericLoop, predictOneBinnedLoop]
    cases hget : nodes[i]? with
    | none => rfl
    | some node =>
      simp only
      by_cases hleaf : node.is_leaf ≠ 0
      · rw [if_pos hleaf, if_pos hleaf]
      · rw [if_neg hleaf, if_neg hleaf]
        have hl0 : node.is_leaf = 0 := not_ne_iff.mp hleaf
        have hth : node.threshold = edges node.feature_idx node.bin_threshold :=
          hrec node (List.getElem?_mem hget) hl0
        have hiff := le_edge_iff_of_strictlyInside (edges node.feature_idx)
          (binned node.feature_idx) (numeric node.feature_idx)
          (hmono node.feature_idx) (hin node.feature_idx) node.bin_threshold
        by_cases hc : binned node.feature_idx ≤ node.bin_threshold
        · rw [if_pos hc, if_pos (by rw [hth]; exact hiff.mpr hc)]
          exact ih node.left
        · rw [if_neg hc, if_neg (by rw [hth]; exact fun hv => hc (hiff.mp hv))]
          exact ih node.right

theorem binned_numeric_paths_agree_witness :
    predictOneNumericLoop demoNodes (fun _ => 3/2) 0 3 =
      predictOneBinnedLoop demoNodes (fun _ => 2) 0 3 :=
  binned_numeric_paths_agree demoNodes (fun _ b => (b : ℚ)) (fun _ => 2)
    (fun _ => 3/2)
    (fun _ a b h => by simp only; exact_mod_cast h)
    (by
      intro n hn h0
      simp only [demoNodes, demoRoot, mkLeaf, List.mem_cons,
        List.mem_singleton] at hn
      rcases hn with h | h | h | h
      · rw [h]; norm_num
      · rw [h] at h0; simp at h0
      · rw [h] at h0; simp at h0
      · simp at h)
    (fun _ => ⟨by norm_num, Or.inr (by norm_num)⟩)
    3 0

end EdgeBoost
